import Mathlib

/-!
A shallow embedding of the replay-buffer subsystem of the machin repository
(ring `Buffer`, sum-tree `WeightTree`, `PrioritizedBuffer`, proportional-dispatch
`DistributedBuffer`) together with the buffer-facing behaviour of the `PPO` and
`DQN` framework classes.  The buffer classes themselves are re-exported by
`machin/frame/buffers/__init__.py` but their defining modules are not part of
the source tree, so they are modelled from the specification; the `PPO`/`DQN`
definitions are transcribed from `src/models/frameworks/ppo.py` and
`src/models/frameworks/dqn.py`.
-/

set_option maxHeartbeats 1000000

/-- Modelled from the spec: the error taxonomy of section 7 of the
specification (`InvalidArgument`, `EmptyBuffer`, `EmptyTree`, `ShapeMismatch`,
`PartialFailure`). -/
inductive BufError where
  | InvalidArgument
  | EmptyBuffer
  | EmptyTree
  | ShapeMismatch
  | PartialFailure
deriving DecidableEq

/-- Modelled from the spec: a transition record is a mapping from named fields
to values; the buffer is agnostic to field semantics, so values are embedded as
rationals. -/
def Record : Type := List (String × ℚ)

instance : DecidableEq Record := by
  unfold Record
  infer_instance

instance : Inhabited Record := ⟨([] : List (String × ℚ))⟩

/-- The field schema of a record: its list of field names. -/
def Record.schema (r : Record) : List String :=
  r.map Prod.fst

/-- Modelled from the spec: the `Buffer` class of
`machin/frame/buffers/buffer.py` (absent from the source tree).  A
fixed-capacity circular store: `slots` is the pre-allocated backing array,
`appended` counts appends since the last `clear`, and `schema` is the field
schema fixed by the first appended record. -/
structure Buffer where
  capacity : Nat
  slots : List (Option Record)
  appended : Nat
  schema : Option (List String)
deriving DecidableEq

/-- A freshly constructed buffer: `capacity` empty pre-allocated slots. -/
def Buffer.mk0 (cap : Nat) : Buffer :=
  ⟨cap, List.replicate cap none, 0, none⟩

/-- Current occupied count (`size()` in the spec). -/
def Buffer.size (b : Buffer) : Nat :=
  min b.appended b.capacity

/-- Schema validation: a record matches if no schema is established yet or its
field names equal the established schema. -/
def Buffer.schemaOk (b : Buffer) (r : Record) : Bool :=
  match b.schema with
  | none => true
  | some s => decide (r.schema = s)

/-- The unchecked slot write: insert at the write cursor `appended % capacity`,
advance the cursor, and establish the schema. -/
def Buffer.write (b : Buffer) (r : Record) : Buffer :=
  { b with
    slots := b.slots.set (b.appended % b.capacity) (some r)
    appended := b.appended + 1
    schema := some r.schema }

/-- Modelled from the spec: `Buffer.append` as a state transformer that also
reports the raised error, validating the schema before any mutation. -/
def Buffer.appendStep (b : Buffer) (r : Record) : Buffer × Option BufError :=
  if b.schemaOk r then (b.write r, none) else (b, some BufError.InvalidArgument)

/-- `Buffer.append` with exception semantics. -/
def Buffer.append (b : Buffer) (r : Record) : Except BufError Buffer :=
  match b.appendStep r with
  | (b', none) => .ok b'
  | (_, some e) => .error e

/-- Append a whole sequence of records, stopping at the first error. -/
def Buffer.appendAll (b : Buffer) : List Record → Except BufError Buffer
  | [] => .ok b
  | r :: rs =>
    match b.append r with
    | .ok b' => b'.appendAll rs
    | .error e => .error e

/-- Modelled from the spec: `clear()` resets the occupied count and write
cursor; backing storage is not deallocated. -/
def Buffer.clear (b : Buffer) : Buffer :=
  { b with appended := 0 }

/-- The occupied slots in insertion order (oldest first): slot
`(appended - size + k) % capacity` holds the `k`-th oldest record. -/
def Buffer.contents (b : Buffer) : List (Option Record) :=
  (List.range b.size).map fun k =>
    b.slots.getD ((b.appended - b.size + k) % b.capacity) none

/-- Modelled from the spec: the sampling method of `sample_batch`: uniform
random with replacement, or `"all"`. -/
inductive SampleMethod where
  | random
  | all
deriving DecidableEq

/-- Modelled from the spec: `Buffer.sample_batch`.  Fails with `EmptyBuffer`
on an empty buffer; `"all"` returns every occupied slot, ignoring
`batch_size`; `random` draws `batch_size` slots uniformly with replacement,
driven by the pseudo-random stream `rands`. -/
def Buffer.sample_batch (b : Buffer) (batchSize : Nat) (m : SampleMethod)
    (rands : List Nat) : Except BufError (Nat × List (Option Record)) :=
  if b.size = 0 then .error BufError.EmptyBuffer
  else
    match m with
    | .all => .ok (b.size, b.contents)
    | .random =>
      .ok (batchSize,
        (List.range batchSize).map fun k =>
          b.contents.getD (rands.getD k 0 % b.size) none)

/-- Fuel-driven ceiling base-2 logarithm (structurally recursive so that it
evaluates inside the kernel). -/
def clog2Aux : Nat → Nat → Nat
  | 0, _ => 0
  | fuel + 1, n => if n ≤ 1 then 0 else clog2Aux fuel ((n + 1) / 2) + 1

/-- Ceiling base-2 logarithm: the depth of a weight tree over `n` leaves. -/
def ceilLog2 (n : Nat) : Nat :=
  clog2Aux n n

/-- Modelled from the spec: a complete binary sum-tree of depth `d`, the data
structure of the `WeightTree` class of `machin/frame/buffers/prioritized_buffer.py`
(absent from the source tree).  Leaves hold non-negative weights, internal
nodes cache the sum of their subtree. -/
inductive WTree : Nat → Type where
  | lf (w : ℚ) : WTree 0
  | nd {d : Nat} (s : ℚ) (l r : WTree d) : WTree (d + 1)

/-- The cached value of the root node of a subtree. -/
def WTree.value : {d : Nat} → WTree d → ℚ
  | _, .lf w => w
  | _, .nd s _ _ => s

/-- The weight of leaf `i` (indices out of range read the rightmost path). -/
def WTree.getLeaf : {d : Nat} → WTree d → Nat → ℚ
  | _, .lf w, _ => w
  | _, @WTree.nd d _ l r, i =>
    if i < 2 ^ d then l.getLeaf i else r.getLeaf (i - 2 ^ d)

/-- Set leaf `i` to `w`, propagating the delta up through every ancestor sum. -/
def WTree.updateLeaf : {d : Nat} → WTree d → Nat → ℚ → WTree d
  | _, .lf _, _, w => .lf w
  | _, @WTree.nd d s l r, i, w =>
    if i < 2 ^ d then .nd (s + (w - l.getLeaf i)) (l.updateLeaf i w) r
    else .nd (s + (w - r.getLeaf (i - 2 ^ d))) l (r.updateLeaf (i - 2 ^ d) w)

/-- The all-zero tree of depth `d` (initial state of a weight tree). -/
def WTree.zero : (d : Nat) → WTree d
  | 0 => .lf 0
  | d + 1 => .nd 0 (WTree.zero d) (WTree.zero d)

/-- The list of all `2 ^ d` leaf weights, left to right. -/
def WTree.leavesList : {d : Nat} → WTree d → List ℚ
  | _, .lf w => [w]
  | _, .nd _ l r => l.leavesList ++ r.leavesList

/-- The true sum of all leaf weights (recomputed, not cached). -/
def WTree.leavesSum : {d : Nat} → WTree d → ℚ
  | _, .lf w => w
  | _, .nd _ l r => l.leavesSum + r.leavesSum

/-- The maximum leaf weight. -/
def WTree.leafMax : {d : Nat} → WTree d → ℚ
  | _, .lf w => w
  | _, .nd _ l r => max l.leafMax r.leafMax

/-- The sum-tree invariant: the value of every internal node equals the sum of its
two children. -/
def WTree.wf : {d : Nat} → WTree d → Prop
  | _, .lf _ => True
  | _, .nd s l r => s = l.value + r.value ∧ l.wf ∧ r.wf

/-- Boolean version of the sum-tree invariant. -/
def WTree.wfb : {d : Nat} → WTree d → Bool
  | _, .lf _ => true
  | _, .nd s l r => decide (s = l.value + r.value) && l.wfb && r.wfb

instance {d : Nat} (t : WTree d) : Decidable t.wf :=
  decidable_of_iff (t.wfb = true) (by
    induction t with
    | lf w => simp [WTree.wfb, WTree.wf]
    | nd s l r ihl ihr =>
      simp [WTree.wfb, WTree.wf, ihl, ihr, and_assoc])

/-- Weighted descent: given a cumulative target `x` in `[0, total)`, walk down
the tree comparing against the sum of the left subtree; returns the selected
leaf index. -/
def WTree.descend : {d : Nat} → WTree d → ℚ → Nat
  | _, .lf _, _ => 0
  | _, @WTree.nd d _ l r, x =>
    if x < l.value then l.descend x else 2 ^ d + r.descend (x - l.value)

/-- Modelled from the spec: the `WeightTree` class of
`machin/frame/buffers/prioritized_buffer.py` (absent from the source tree).
A requested `capacity` is padded up to `2 ^ depth` zero-weight leaves with
`depth = ceil(log2 capacity)`. -/
structure WeightTree where
  capacity : Nat
  depth : Nat
  tree : WTree depth

/-- A freshly constructed weight tree: all leaves zero, padded to the next
power of two. -/
def WeightTree.mk0 (cap : Nat) : WeightTree :=
  ⟨cap, ceilLog2 cap, WTree.zero (ceilLog2 cap)⟩

/-- `total_weight()`: O(1) read of the root sum. -/
def WeightTree.total_weight (t : WeightTree) : ℚ :=
  t.tree.value

/-- Modelled from the spec: `WeightTree.update` as a state transformer that
also reports the raised error: a negative weight is rejected before any
mutation; otherwise the leaf is set and all ancestor sums updated. -/
def WeightTree.updateStep (t : WeightTree) (i : Nat) (w : ℚ) :
    WeightTree × Option BufError :=
  if w < 0 then (t, some BufError.InvalidArgument)
  else ({ t with tree := t.tree.updateLeaf i w }, none)

/-- `WeightTree.update` with exception semantics. -/
def WeightTree.update (t : WeightTree) (i : Nat) (w : ℚ) :
    Except BufError WeightTree :=
  match t.updateStep i w with
  | (t', none) => .ok t'
  | (_, some e) => .error e

/-- The unchecked leaf write (used internally by `PrioritizedBuffer.append`
after its own validation). -/
def WeightTree.setLeaf (t : WeightTree) (i : Nat) (w : ℚ) : WeightTree :=
  { t with tree := t.tree.updateLeaf i w }

/-- Apply a sequence of `update(index, weight)` calls, stopping at the first
error. -/
def WeightTree.applyUpdates (t : WeightTree) :
    List (Nat × ℚ) → Except BufError WeightTree
  | [] => .ok t
  | u :: us =>
    match t.update u.1 u.2 with
    | .ok t' => t'.applyUpdates us
    | .error e => .error e

/-- Modelled from the spec: `WeightTree.sample(n)`.  Fails with `EmptyTree`
when the total weight is `0`; otherwise each uniform draw `r` in `[0, 1)` from
the stream `rs` selects the leaf found by descending with cumulative target
`r * total_weight`. -/
def WeightTree.sample (t : WeightTree) (rs : List ℚ) :
    Except BufError (List Nat) :=
  if t.total_weight = 0 then .error BufError.EmptyTree
  else .ok (rs.map fun r => t.tree.descend (r * t.total_weight))

/-- Modelled from the spec: the `PrioritizedBuffer` class of
`machin/frame/buffers/prioritized_buffer.py` (absent from the source tree):
a ring-buffer slot store composed with a `WeightTree` of the same capacity. -/
structure PrioritizedBuffer where
  buffer : Buffer
  wt : WeightTree

/-- A freshly constructed prioritized buffer. -/
def PrioritizedBuffer.mk0 (cap : Nat) : PrioritizedBuffer :=
  ⟨Buffer.mk0 cap, WeightTree.mk0 cap⟩

/-- The default priority for an append without an explicit priority: the
current maximum priority across all slots, or `1` if the buffer is empty. -/
def PrioritizedBuffer.defaultPriority (pb : PrioritizedBuffer) : ℚ :=
  if pb.buffer.size = 0 then 1 else pb.wt.tree.leafMax

/-- Modelled from the spec: `PrioritizedBuffer.append(record, priority=None)`
as a state transformer that also reports the raised error.  Validation
(schema, non-negative priority) happens before any mutation; then the record
is written under the same ring-buffer rule as `Buffer` and the tree weight
of the written slot is set to the given priority, defaulting to
`defaultPriority`. -/
def PrioritizedBuffer.appendStep (pb : PrioritizedBuffer) (r : Record)
    (pr : Option ℚ) : PrioritizedBuffer × Option BufError :=
  let p := pr.getD pb.defaultPriority
  if pb.buffer.schemaOk r = false then (pb, some BufError.InvalidArgument)
  else if p < 0 then (pb, some BufError.InvalidArgument)
  else (⟨pb.buffer.write r,
         pb.wt.setLeaf (pb.buffer.appended % pb.buffer.capacity) p⟩, none)

/-- `PrioritizedBuffer.append` with exception semantics. -/
def PrioritizedBuffer.append (pb : PrioritizedBuffer) (r : Record)
    (pr : Option ℚ) : Except BufError PrioritizedBuffer :=
  match pb.appendStep r pr with
  | (pb', none) => .ok pb'
  | (_, some e) => .error e

/-- Modelled from the spec: `update_priority` for a single sampled index, as a
state transformer that also reports the raised error. -/
def PrioritizedBuffer.updatePriorityStep (pb : PrioritizedBuffer) (i : Nat)
    (w : ℚ) : PrioritizedBuffer × Option BufError :=
  match pb.wt.updateStep i w with
  | (wt', none) => (⟨pb.buffer, wt'⟩, none)
  | (_, some e) => (pb, some e)

/-- `update_priority` with exception semantics. -/
def PrioritizedBuffer.update_priority (pb : PrioritizedBuffer) (i : Nat)
    (w : ℚ) : Except BufError PrioritizedBuffer :=
  match pb.updatePriorityStep i w with
  | (pb', none) => .ok pb'
  | (_, some e) => .error e

/-- Modelled from the spec: `PrioritizedBuffer.sample_batch` draws its slot
indices through `WeightTree.sample` and returns each index together with the
stored record. -/
def PrioritizedBuffer.sample_batch (pb : PrioritizedBuffer) (batchSize : Nat)
    (rs : List ℚ) : Except BufError (List (Nat × Option Record)) :=
  match pb.wt.sample (rs.take batchSize) with
  | .ok idxs => .ok (idxs.map fun i => (i, pb.buffer.slots.getD i none))
  | .error e => .error e

/-- Modelled from the spec: `clear()` on a prioritized buffer resets the slot
store and zeroes every tree weight. -/
def PrioritizedBuffer.clear (pb : PrioritizedBuffer) : PrioritizedBuffer :=
  ⟨pb.buffer.clear, { pb.wt with tree := WTree.zero pb.wt.depth }⟩

/-- Modelled from the spec: a `DistributedBuffer` is the union of independent
shard buffers, one per worker. -/
structure DistributedBuffer where
  shards : List Buffer

/-- The global occupied count across all shards. -/
def DistributedBuffer.totalSize (db : DistributedBuffer) : Nat :=
  (db.shards.map Buffer.size).sum

/-- Strategy (a) proportional dispatch: each shard is asked for a number of
local samples proportional to its reported size. -/
def DistributedBuffer.dispatch (db : DistributedBuffer) (batchSize : Nat) :
    List Nat :=
  db.shards.map fun sh => batchSize * sh.size / db.totalSize

/-- A local uniform sample of `n` occupied slots (with replacement), driven by
the pseudo-random stream `rands`. -/
def Buffer.localSample (b : Buffer) (n : Nat) (rands : List Nat) :
    List (Option Record) :=
  (List.range n).map fun k => b.contents.getD (rands.getD k 0 % b.size) none

/-- Modelled from the spec: `DistributedBuffer.sample_batch` under
coordination strategy (a): query the size of every shard, dispatch a proportional
number of local samples to each shard, and concatenate the results, tagging
each sample with the index of the shard it came from. -/
def DistributedBuffer.sample_batch (db : DistributedBuffer) (batchSize : Nat)
    (rands : List Nat) : Except BufError (List (Nat × Option Record)) :=
  if db.totalSize = 0 then .error BufError.EmptyBuffer
  else
    .ok (((List.range db.shards.length).zip (db.dispatch batchSize)).map
      (fun p => ((db.shards.getD p.1 (Buffer.mk0 0)).localSample p.2 rands).map
        fun rec => (p.1, rec))).flatten

/-- Transcribed from `src/models/frameworks/ppo.py`: both branches of
`PPO.update` (`next_value_use_rollout` true at lines 166-174 and false at
lines 175-183) pass `sample_method="all"` to `sample_batch`. -/
def PPO.sampleMethodUsed (nextValueUseRollout : Bool) : SampleMethod :=
  if nextValueUseRollout then SampleMethod.all else SampleMethod.all

/-- Transcribed from `src/models/frameworks/ppo.py` lines 156-231: the
replay-buffer interaction of `PPO.update`.  It draws one batch with
`sample_method="all"` and, after the gradient loop (outside the scope of the
buffer), calls `clear()` on the replay buffer before returning.  A sampling
error propagates as an exception, in which case `clear()` is not reached.
Returns (batch drawn, final buffer state, raised error). -/
def PPO.update (rpb : Buffer) (batchSize : Nat) (nextValueUseRollout : Bool) :
    Option (Nat × List (Option Record)) × Buffer × Option BufError :=
  match rpb.sample_batch batchSize (PPO.sampleMethodUsed nextValueUseRollout) [] with
  | .error e => (none, rpb, some e)
  | .ok batch => (some batch, rpb.clear, none)

/-- Transcribed from `src/models/frameworks/dqn.py` lines 155-159: the
elementwise Bellman backup (device moves `.to(...)` are value-identities, so
tensor elements are embedded as rationals; trailing `*_` arguments are
ignored by the source). -/
def DQN.bellman_function (reward discount next_value terminal : ℚ) : ℚ :=
  reward + discount * (1 - terminal) * next_value

/-- Transcribed from `src/models/frameworks/ppo.py` lines 239-243: the
elementwise Bellman backup (device moves `.to(...)` are value-identities, so
tensor elements are embedded as rationals; trailing `*_` arguments are
ignored by the source). -/
def PPO.bellman_function (reward discount next_value terminal : ℚ) : ℚ :=
  reward + discount * (1 - terminal) * next_value

theorem clog2Aux_eq_clog (fuel n : Nat) (h : n ≤ fuel) :
    clog2Aux fuel n = Nat.clog 2 n := by
  induction fuel generalizing n with
  | zero =>
    interval_cases n
    simp [clog2Aux]
  | succ fuel ih =>
    by_cases h1 : n ≤ 1
    · rw [clog2Aux, if_pos h1, Nat.clog_of_right_le_one h1]
    · rw [clog2Aux, if_neg h1,
        Nat.clog_of_two_le (by norm_num) (by omega), ih ((n + 1) / 2) (by omega)]
      norm_num

theorem ceilLog2_eq_clog (n : Nat) : ceilLog2 n = Nat.clog 2 n :=
  clog2Aux_eq_clog n n le_rfl

theorem le_two_pow_ceilLog2 (n : Nat) : n ≤ 2 ^ ceilLog2 n := by
  rw [ceilLog2_eq_clog]
  exact Nat.le_pow_clog (by norm_num) n

theorem WTree.value_updateLeaf {d : Nat} (t : WTree d) (i : Nat) (w : ℚ) :
    (t.updateLeaf i w).value = t.value + (w - t.getLeaf i) := by
  cases t with
  | lf x =>
    simp only [WTree.updateLeaf, WTree.value, WTree.getLeaf]
    ring
  | nd s l r =>
    simp only [WTree.updateLeaf, WTree.getLeaf]
    split <;> simp [WTree.value]

theorem WTree.wf_updateLeaf : ∀ {d : Nat} (t : WTree d) (i : Nat) (w : ℚ),
    t.wf → (t.updateLeaf i w).wf
  | _, .lf _, _, _, _ => trivial
  | _, @WTree.nd d s l r, i, w, h => by
    obtain ⟨hs, hl, hr⟩ := h
    simp only [WTree.updateLeaf]
    split
    · refine ⟨?_, WTree.wf_updateLeaf l i w hl, hr⟩
      rw [WTree.value_updateLeaf, hs]
      ring
    · refine ⟨?_, hl, WTree.wf_updateLeaf r (i - 2 ^ d) w hr⟩
      rw [WTree.value_updateLeaf, hs]
      ring

theorem WTree.getLeaf_updateLeaf_self : ∀ {d : Nat} (t : WTree d) (i : Nat)
    (w : ℚ), i < 2 ^ d → (t.updateLeaf i w).getLeaf i = w
  | _, .lf _, _, _, _ => by simp [WTree.updateLeaf, WTree.getLeaf]
  | _, @WTree.nd d s l r, i, w, hi => by
    have h2 : 2 ^ (d + 1) = 2 ^ d + 2 ^ d := by rw [Nat.pow_succ]; omega
    by_cases h : i < 2 ^ d
    · simp only [WTree.updateLeaf, if_pos h, WTree.getLeaf]
      exact WTree.getLeaf_updateLeaf_self l i w h
    · simp only [WTree.updateLeaf, if_neg h, WTree.getLeaf]
      exact WTree.getLeaf_updateLeaf_self r (i - 2 ^ d) w (by omega)

theorem WTree.getLeaf_updateLeaf_ne : ∀ {d : Nat} (t : WTree d) (i j : Nat)
    (w : ℚ), i < 2 ^ d → j < 2 ^ d → i ≠ j →
    (t.updateLeaf i w).getLeaf j = t.getLeaf j
  | _, .lf _, i, j, _, hi, hj, hij => by omega
  | _, @WTree.nd d s l r, i, j, w, hi, hj, hij => by
    have h2 : 2 ^ (d + 1) = 2 ^ d + 2 ^ d := by rw [Nat.pow_succ]; omega
    by_cases h : i < 2 ^ d
    · simp only [WTree.updateLeaf, if_pos h, WTree.getLeaf]
      by_cases h' : j < 2 ^ d
      · rw [if_pos h', if_pos h']
        exact WTree.getLeaf_updateLeaf_ne l i j w h h' hij
      · rw [if_neg h', if_neg h']
    · simp only [WTree.updateLeaf, if_neg h, WTree.getLeaf]
      by_cases h' : j < 2 ^ d
      · rw [if_pos h', if_pos h']
      · rw [if_neg h', if_neg h']
        exact WTree.getLeaf_updateLeaf_ne r (i - 2 ^ d) (j - 2 ^ d) w
          (by omega) (by omega) (by omega)

theorem WTree.value_eq_leavesSum {d : Nat} (t : WTree d) (h : t.wf) :
    t.value = t.leavesSum := by
  induction t with
  | lf w => rfl
  | nd s l r ihl ihr =>
    obtain ⟨hs, hl, hr⟩ := h
    simp only [WTree.value, WTree.leavesSum] at *
    rw [hs, ihl hl, ihr hr]

theorem WTree.value_zero (d : Nat) : (WTree.zero d).value = 0 := by
  cases d <;> rfl

theorem WTree.wf_zero (d : Nat) : (WTree.zero d).wf := by
  induction d with
  | zero => trivial
  | succ d ih => exact ⟨by rw [WTree.value_zero]; norm_num, ih, ih⟩

theorem WTree.leavesList_zero (d : Nat) :
    (WTree.zero d).leavesList = List.replicate (2 ^ d) 0 := by
  induction d with
  | zero => rfl
  | succ d ih =>
    show (WTree.zero d).leavesList ++ (WTree.zero d).leavesList = _
    rw [ih, Nat.pow_succ, Nat.mul_comm, Nat.two_mul, List.replicate_add]

theorem WTree.leavesSum_nonneg {d : Nat} (t : WTree d)
    (h : ∀ x ∈ t.leavesList, 0 ≤ x) : 0 ≤ t.leavesSum := by
  induction t with
  | lf w => exact h w (by simp [WTree.leavesList])
  | nd s l r ihl ihr =>
    have hl := ihl fun x hx => h x (by simp [WTree.leavesList, hx])
    have hr := ihr fun x hx => h x (by simp [WTree.leavesList, hx])
    simpa [WTree.leavesSum] using add_nonneg hl hr

theorem WTree.descend_lt : ∀ {d : Nat} (t : WTree d) (x : ℚ),
    t.descend x < 2 ^ d
  | _, .lf _, _ => by simp [WTree.descend]
  | _, @WTree.nd d s l r, x => by
    have h2 : 2 ^ (d + 1) = 2 ^ d + 2 ^ d := by rw [Nat.pow_succ]; omega
    simp only [WTree.descend]
    split
    · have := WTree.descend_lt l x
      omega
    · have := WTree.descend_lt r (x - l.value)
      omega

theorem WTree.getLeaf_descend_pos : ∀ {d : Nat} (t : WTree d) (x : ℚ),
    t.wf → 0 ≤ x → x < t.value → 0 < t.getLeaf (t.descend x)
  | _, .lf w, x, _, h0, h1 => by
    simp only [WTree.descend, WTree.getLeaf]
    exact lt_of_le_of_lt h0 h1
  | _, @WTree.nd d s l r, x, hwf, h0, h1 => by
    obtain ⟨hs, hl, hr⟩ := hwf
    simp only [WTree.descend]
    split
    · rename_i hx
      have hb := WTree.descend_lt l x
      simp only [WTree.getLeaf, if_pos hb]
      exact WTree.getLeaf_descend_pos l x hl h0 hx
    · rename_i hx
      push_neg at hx
      have hb := WTree.descend_lt r (x - l.value)
      have hnb : ¬ (2 ^ d + r.descend (x - l.value) < 2 ^ d) := by omega
      simp only [WTree.getLeaf, if_neg hnb, Nat.add_sub_cancel_left]
      refine WTree.getLeaf_descend_pos r (x - l.value) hr (by linarith) ?_
      have : x < l.value + r.value := by
        rw [← hs]
        simpa [WTree.value] using h1
      linarith

theorem listGetDSetSelf {α : Type} (l : List α) (i : Nat) (x d : α)
    (h : i < l.length) : (l.set i x).getD i d = x := by
  simp [List.getD_eq_getElem?_getD, List.getElem?_set_self h]

theorem listGetDSetNe {α : Type} (l : List α) (i j : Nat) (x d : α)
    (h : i ≠ j) : (l.set i x).getD j d = l.getD j d := by
  simp [List.getD_eq_getElem?_getD, List.getElem?_set_ne h]

theorem Buffer.appendAll_append (b : Buffer) (xs ys : List Record)
    (b' : Buffer) (h : b.appendAll xs = .ok b') :
    b.appendAll (xs ++ ys) = b'.appendAll ys := by
  induction xs generalizing b with
  | nil =>
    simp only [Buffer.appendAll] at h
    cases h
    rfl
  | cons x xs ih =>
    rw [List.cons_append]
    simp only [Buffer.appendAll] at h ⊢
    cases hx : b.append x with
    | ok b1 =>
      rw [hx] at h
      exact ih b1 h
    | error e =>
      rw [hx] at h
      exact Except.noConfusion h

/-- If two append counters agree modulo the capacity and lie within one
window of `c` appends of each other, they are equal. -/
theorem ring_cursor_inj {c j n : Nat} (hj : j < n) (hw : n < j + c)
    (hmod : j % c = n % c) : False := by
  have hc : 0 < c := by omega
  have hdvd : c ∣ n - j := (Nat.modEq_iff_dvd' (by omega)).mp hmod
  have := Nat.eq_zero_of_dvd_of_lt hdvd (by omega)
  omega

theorem Buffer.appendAll_spec (c : Nat) (s : List String) :
    ∀ rs : List Record, (∀ r ∈ rs, r.schema = s) →
    ∃ b, (Buffer.mk0 c).appendAll rs = .ok b ∧
      b.capacity = c ∧ b.appended = rs.length ∧ b.slots.length = c ∧
      (b.schema = none ∨ b.schema = some s) ∧
      ∀ j (hj : j < rs.length), rs.length ≤ j + c →
        b.slots.getD (j % c) none = some (rs.get ⟨j, hj⟩) := by
  intro rs
  induction rs using List.reverseRecOn with
  | nil =>
    intro _
    refine ⟨Buffer.mk0 c, rfl, rfl, rfl, by simp [Buffer.mk0], Or.inl rfl, ?_⟩
    intro j hj
    simp at hj
  | append_singleton xs r ih =>
    intro hs
    obtain ⟨b, hb, hcap, happ, hlen, hsch, hinv⟩ :=
      ih fun q hq => hs q (List.mem_append_left _ hq)
    have hr : r.schema = s := hs r (List.mem_append_right _ (by simp))
    have hok : b.schemaOk r = true := by
      rcases hsch with h | h <;> simp [Buffer.schemaOk, h, hr]
    refine ⟨b.write r, ?_, by simp [Buffer.write, hcap],
      by simp [Buffer.write, happ], by simp [Buffer.write, hlen],
      Or.inr (by simp [Buffer.write, hr]), ?_⟩
    · rw [Buffer.appendAll_append _ xs [r] b hb]
      simp [Buffer.appendAll, Buffer.append, Buffer.appendStep, hok]
    · intro j hj hwin
      simp only [List.length_append, List.length_singleton] at hj hwin
      have hc : 0 < c := by omega
      have hn : xs.length % c < b.slots.length := by
        rw [hlen]
        exact Nat.mod_lt _ hc
      by_cases hcase : j = xs.length
      · subst hcase
        simp only [Buffer.write, hcap, happ]
        rw [listGetDSetSelf _ _ _ _ hn]
        congr 1
        rw [List.get_eq_getElem]
        exact (List.getElem_concat_length xs r xs.length rfl _).symm
      · have hjx : j < xs.length := by omega
        simp only [Buffer.write, hcap, happ]
        rw [listGetDSetNe _ _ _ _ _
          (fun hmod => ring_cursor_inj hjx (by omega) hmod.symm)]
        have := hinv j hjx (by omega)
        rw [this]
        congr 1
        rw [List.get_eq_getElem, List.get_eq_getElem]
        exact (List.getElem_append_left ..).symm

theorem Buffer.contents_appendAll (c : Nat) (s : List String)
    (rs : List Record) (hs : ∀ r ∈ rs, r.schema = s) (hc : 0 < c)
    (hlen : c < rs.length) (b : Buffer)
    (hb : (Buffer.mk0 c).appendAll rs = .ok b) :
    b.contents = (rs.drop (rs.length - c)).map some := by
  obtain ⟨b', hb', hcap, happ, hsl, hsch, hinv⟩ := Buffer.appendAll_spec c s rs hs
  rw [hb'] at hb
  injection hb with hbb
  subst hbb
  have hsize : b'.size = c := by
    unfold Buffer.size
    rw [happ, hcap]
    omega
  unfold Buffer.contents
  rw [hsize, happ, hcap]
  refine List.ext_getElem ?_ ?_
  · simp
    omega
  · intro k h1 h2
    simp only [List.getElem_map, List.getElem_range, List.getElem_drop]
    have hk : k < c := by simpa using h1
    have hj : rs.length - c + k < rs.length := by omega
    have := hinv (rs.length - c + k) hj (by omega)
    rw [List.get_eq_getElem] at this
    rw [this]

theorem WeightTree.applyUpdates_ok (us : List (Nat × ℚ)) :
    ∀ t : WeightTree, (∀ u ∈ us, 0 ≤ u.2) →
    ∃ t', t.applyUpdates us = .ok t' ∧ (t.tree.wf → t'.tree.wf) := by
  induction us with
  | nil => exact fun t _ => ⟨t, rfl, id⟩
  | cons u us ih =>
    intro t h
    have hu : ¬ u.2 < 0 := not_lt.mpr (h u (by simp))
    obtain ⟨t', ht', hwf⟩ :=
      ih (t.setLeaf u.1 u.2) fun v hv => h v (by simp [hv])
    refine ⟨t', ?_, fun hw => hwf (WTree.wf_updateLeaf _ _ _ hw)⟩
    simp only [WeightTree.applyUpdates, WeightTree.update, WeightTree.updateStep,
      if_neg hu]
    exact ht'

theorem WTree.getLeaf_le_leafMax : ∀ {d : Nat} (t : WTree d) (i : Nat),
    t.getLeaf i ≤ t.leafMax
  | _, .lf w, _ => le_refl w
  | _, @WTree.nd d s l r, i => by
    simp only [WTree.getLeaf, WTree.leafMax]
    split
    · exact le_trans (WTree.getLeaf_le_leafMax l i) (le_max_left _ _)
    · exact le_trans (WTree.getLeaf_le_leafMax r (i - 2 ^ d)) (le_max_right _ _)

theorem WTree.exists_getLeaf_eq_leafMax : ∀ {d : Nat} (t : WTree d),
    ∃ j, j < 2 ^ d ∧ t.getLeaf j = t.leafMax
  | _, .lf w => ⟨0, by norm_num, rfl⟩
  | _, @WTree.nd d s l r => by
    have h2 : 2 ^ (d + 1) = 2 ^ d + 2 ^ d := by rw [Nat.pow_succ]; omega
    by_cases hlr : l.leafMax ≤ r.leafMax
    · obtain ⟨j, hj, hg⟩ := WTree.exists_getLeaf_eq_leafMax r
      refine ⟨2 ^ d + j, by omega, ?_⟩
      have hnb : ¬ (2 ^ d + j < 2 ^ d) := by omega
      simp only [WTree.getLeaf, if_neg hnb, Nat.add_sub_cancel_left,
        WTree.leafMax, hg]
      exact (max_eq_right hlr).symm
    · obtain ⟨j, hj, hg⟩ := WTree.exists_getLeaf_eq_leafMax l
      refine ⟨j, by omega, ?_⟩
      simp only [WTree.getLeaf, if_pos hj, WTree.leafMax, hg]
      exact (max_eq_left (le_of_not_le hlr)).symm

theorem listGetDMem {α : Type} (l : List α) (n : Nat) (d : α)
    (h : n < l.length) : l.getD n d ∈ l := by
  rw [List.getD_eq_getElem?_getD, List.getElem?_eq_getElem h]
  exact List.getElem_mem h

theorem Buffer.contents_length (b : Buffer) : b.contents.length = b.size := by
  simp [Buffer.contents]

theorem WeightTree.sample_mem_spec (t : WeightTree) (rs : List ℚ)
    (idxs : List Nat) (hwf : t.tree.wf)
    (hnn : ∀ x ∈ t.tree.leavesList, 0 ≤ x)
    (hrs : ∀ q ∈ rs, 0 ≤ q ∧ q < 1) (h : t.sample rs = .ok idxs) :
    ∀ i ∈ idxs, 0 < t.tree.getLeaf i ∧ i < 2 ^ t.depth := by
  by_cases h0 : t.total_weight = 0
  · simp [WeightTree.sample, h0] at h
  · have hpos : 0 < t.total_weight := by
      have h1 : t.total_weight = t.tree.leavesSum := WTree.value_eq_leavesSum _ hwf
      have h2 : 0 ≤ t.tree.leavesSum := WTree.leavesSum_nonneg _ hnn
      rw [h1]
      rcases lt_or_eq_of_le h2 with h3 | h3
      · exact h3
      · exact absurd (h1.trans h3.symm) h0
    simp only [WeightTree.sample, if_neg h0] at h
    injection h with h
    subst h
    intro i hi
    obtain ⟨q, hq, hqi⟩ := List.mem_map.mp hi
    obtain ⟨hq0, hq1⟩ := hrs q hq
    have hx0 : 0 ≤ q * t.total_weight := mul_nonneg hq0 (le_of_lt hpos)
    have hx1 : q * t.total_weight < t.total_weight := by
      have := mul_lt_of_lt_one_left hpos hq1
      linarith
    subst hqi
    exact ⟨WTree.getLeaf_descend_pos _ _ hwf hx0 hx1, WTree.descend_lt _ _⟩

/-- C10: `DQN.bellman_function` (dqn.py lines 155-159) and
`PPO.bellman_function` (ppo.py lines 239-243) compute the same function
`r + d * (1 - term) * v`; in particular, for terminal transitions
(`term = 1`) the result equals the reward alone, with no contribution from
the next-state value. -/
theorem claim_C10_bellman_equiv : ∀ r d v term : ℚ,
    DQN.bellman_function r d v term = PPO.bellman_function r d v term ∧
    (term = 1 → DQN.bellman_function r d v term = r ∧
      PPO.bellman_function r d v term = r) := by
  intro r d v term
  refine ⟨rfl, fun h => ?_⟩
  subst h
  unfold DQN.bellman_function PPO.bellman_function
  constructor <;> ring

theorem claim_C10_witness :
    DQN.bellman_function 2 (1 / 2) 5 1 = PPO.bellman_function 2 (1 / 2) 5 1 ∧
    (DQN.bellman_function 2 (1 / 2) 5 1 = 2 ∧
      PPO.bellman_function 2 (1 / 2) 5 1 = 2) :=
  ⟨(claim_C10_bellman_equiv 2 (1 / 2) 5 1).1,
   (claim_C10_bellman_equiv 2 (1 / 2) 5 1).2 rfl⟩

/-- C9: `PPO.update` always consumes the buffer on-policy: both branches draw
their batch with `sample_method="all"` (which returns every occupied slot and
ignores `batch_size`), and `clear()` is called on the replay buffer before
returning, so the final buffer is empty and no stored transition survives
across update steps. -/
theorem claim_C9_ppo_on_policy :
    (∀ nvur : Bool, PPO.sampleMethodUsed nvur = SampleMethod.all) ∧
    (∀ (rpb : Buffer) (bs : Nat) (nvur : Bool), 0 < rpb.size →
      PPO.update rpb bs nvur =
        (some (rpb.size, rpb.contents), rpb.clear, none) ∧
      (rpb.clear).size = 0) ∧
    (∀ (rpb : Buffer) (bs1 bs2 : Nat) (nv1 nv2 : Bool),
      PPO.update rpb bs1 nv1 = PPO.update rpb bs2 nv2) := by
  refine ⟨fun nvur => by cases nvur <;> rfl, ?_, ?_⟩
  · intro rpb bs nvur h
    have hm : PPO.sampleMethodUsed nvur = SampleMethod.all := by
      cases nvur <;> rfl
    constructor
    · simp [PPO.update, hm, Buffer.sample_batch, Nat.pos_iff_ne_zero.mp h]
    · simp [Buffer.clear, Buffer.size]
  · intro rpb bs1 bs2 nv1 nv2
    have h1 : PPO.sampleMethodUsed nv1 = SampleMethod.all := by
      cases nv1 <;> rfl
    have h2 : PPO.sampleMethodUsed nv2 = SampleMethod.all := by
      cases nv2 <;> rfl
    by_cases h : rpb.size = 0 <;>
      simp [PPO.update, h1, h2, Buffer.sample_batch, h]

theorem claim_C9_witness :
    PPO.update ⟨1, [some [("x", (0:ℚ))]], 1, some ["x"]⟩ 7 true =
      (some ((⟨1, [some [("x", (0:ℚ))]], 1, some ["x"]⟩ : Buffer).size,
        (⟨1, [some [("x", (0:ℚ))]], 1, some ["x"]⟩ : Buffer).contents),
       (⟨1, [some [("x", (0:ℚ))]], 1, some ["x"]⟩ : Buffer).clear, none) ∧
    ((⟨1, [some [("x", (0:ℚ))]], 1, some ["x"]⟩ : Buffer).clear).size = 0 :=
  claim_C9_ppo_on_policy.2.1 ⟨1, [some [("x", (0:ℚ))]], 1, some ["x"]⟩ 7 true
    (by decide)

/-- C3: sampling from an empty buffer or tree always fails with the
documented error and never silently returns a default value:
`Buffer.sample_batch` on an empty buffer fails with `EmptyBuffer`,
`WeightTree.sample` fails with `EmptyTree` whenever the total weight is `0`,
and for every buffer state, `clear()` followed immediately by `sample_batch`
fails with `EmptyBuffer` (plain buffer) or `EmptyTree` (prioritized
buffer). -/
theorem claim_C3_empty_sampling :
    (∀ (b : Buffer) (bs : Nat) (m : SampleMethod) (rands : List Nat),
      b.size = 0 → b.sample_batch bs m rands = .error BufError.EmptyBuffer) ∧
    (∀ (t : WeightTree) (rs : List ℚ), t.total_weight = 0 →
      t.sample rs = .error BufError.EmptyTree) ∧
    (∀ (b : Buffer) (bs : Nat) (m : SampleMethod) (rands : List Nat),
      (b.clear).sample_batch bs m rands = .error BufError.EmptyBuffer) ∧
    (∀ (pb : PrioritizedBuffer) (bs : Nat) (rs : List ℚ),
      (pb.clear).sample_batch bs rs = .error BufError.EmptyTree) := by
  refine ⟨?_, ?_, ?_, ?_⟩
  · intro b bs m rands h
    simp [Buffer.sample_batch, h]
  · intro t rs h
    simp [WeightTree.sample, h]
  · intro b bs m rands
    simp [Buffer.sample_batch, Buffer.clear, Buffer.size]
  · intro pb bs rs
    simp [PrioritizedBuffer.sample_batch, PrioritizedBuffer.clear,
      WeightTree.sample, WeightTree.total_weight, WTree.value_zero]

theorem claim_C3_witness :
    (Buffer.mk0 2).size = 0 ∧
    (Buffer.mk0 2).sample_batch 3 SampleMethod.random [] =
      .error BufError.EmptyBuffer ∧
    (WeightTree.mk0 2).total_weight = 0 ∧
    (WeightTree.mk0 2).sample [] = .error BufError.EmptyTree :=
  ⟨by decide, claim_C3_empty_sampling.1 (Buffer.mk0 2) 3 .random [] (by decide),
   rfl, claim_C3_empty_sampling.2.1 (WeightTree.mk0 2) [] rfl⟩

/-- C5: `WeightTree.update(i, w)` with a negative weight fails with
`InvalidArgument`; with `w ≥ 0` it sets the weight of leaf `i` to `w`, leaves all
other leaves unchanged, preserves the ancestor-sum invariant, and shifts the
root total by exactly the weight delta. -/
theorem claim_C5_update_validation :
    (∀ (t : WeightTree) (i : Nat) (w : ℚ), w < 0 →
      t.update i w = .error BufError.InvalidArgument) ∧
    (∀ (t : WeightTree) (i : Nat) (w : ℚ), 0 ≤ w → i < 2 ^ t.depth →
      ∃ t', t.update i w = .ok t' ∧ t'.tree.getLeaf i = w ∧
        (∀ j, j < 2 ^ t.depth → j ≠ i →
          t'.tree.getLeaf j = t.tree.getLeaf j) ∧
        (t.tree.wf → t'.tree.wf) ∧
        t'.total_weight = t.total_weight + (w - t.tree.getLeaf i)) := by
  constructor
  · intro t i w h
    simp [WeightTree.update, WeightTree.updateStep, h]
  · intro t i w hw hi
    refine ⟨t.setLeaf i w, ?_, ?_, ?_, ?_, ?_⟩
    · simp [WeightTree.update, WeightTree.updateStep, not_lt.mpr hw,
        WeightTree.setLeaf]
    · exact WTree.getLeaf_updateLeaf_self t.tree i w hi
    · intro j hj hji
      exact WTree.getLeaf_updateLeaf_ne t.tree i j w hi hj
        fun h => hji h.symm
    · exact WTree.wf_updateLeaf t.tree i w
    · exact WTree.value_updateLeaf t.tree i w

theorem claim_C5_witness :
    (WeightTree.mk0 2).update 0 (-1) = .error BufError.InvalidArgument ∧
    ∃ t', (WeightTree.mk0 2).update 0 5 = .ok t' ∧ t'.tree.getLeaf 0 = 5 ∧
      (∀ j, j < 2 ^ (WeightTree.mk0 2).depth → j ≠ 0 →
        t'.tree.getLeaf j = (WeightTree.mk0 2).tree.getLeaf j) ∧
      ((WeightTree.mk0 2).tree.wf → t'.tree.wf) ∧
      t'.total_weight = (WeightTree.mk0 2).total_weight +
        (5 - (WeightTree.mk0 2).tree.getLeaf 0) :=
  ⟨claim_C5_update_validation.1 (WeightTree.mk0 2) 0 (-1) (by norm_num),
   claim_C5_update_validation.2 (WeightTree.mk0 2) 0 5 (by norm_num)
     (by decide)⟩

/-- C6: every single-shard operation that raises an error raises it
synchronously and leaves the state unchanged: a failing `Buffer.appendStep`,
`WeightTree.updateStep`, `PrioritizedBuffer.appendStep` or
`PrioritizedBuffer.updatePriorityStep` returns the original state untouched
(sampling operations are pure reads and never modify state in this model). -/
theorem claim_C6_error_atomicity :
    (∀ (b : Buffer) (r : Record) (b' : Buffer) (e : BufError),
      b.appendStep r = (b', some e) → b' = b) ∧
    (∀ (t : WeightTree) (i : Nat) (w : ℚ) (t' : WeightTree) (e : BufError),
      t.updateStep i w = (t', some e) → t' = t) ∧
    (∀ (pb : PrioritizedBuffer) (r : Record) (pr : Option ℚ)
      (pb' : PrioritizedBuffer) (e : BufError),
      pb.appendStep r pr = (pb', some e) → pb' = pb) ∧
    (∀ (pb : PrioritizedBuffer) (i : Nat) (w : ℚ)
      (pb' : PrioritizedBuffer) (e : BufError),
      pb.updatePriorityStep i w = (pb', some e) → pb' = pb) := by
  refine ⟨?_, ?_, ?_, ?_⟩
  · intro b r b' e h
    unfold Buffer.appendStep at h
    split at h
    · simp at h
    · injection h with h1 h2
      exact h1.symm
  · intro t i w t' e h
    unfold WeightTree.updateStep at h
    split at h
    · injection h with h1 h2
      exact h1.symm
    · simp at h
  · intro pb r pr pb' e h
    unfold PrioritizedBuffer.appendStep at h
    split at h
    · injection h with h1 h2
      exact h1.symm
    · by_cases hp : pr.getD pb.defaultPriority < 0
      · simp only [if_pos hp] at h
        injection h with h1 h2
        exact h1.symm
      · simp only [if_neg hp] at h
        simp at h
  · intro pb i w pb' e h
    unfold PrioritizedBuffer.updatePriorityStep at h
    split at h
    · simp at h
    · injection h with h1 h2
      exact h1.symm

theorem claim_C6_witness :
    (⟨1, [none], 0, some ["y"]⟩ : Buffer).appendStep [("x", (0:ℚ))] =
      (⟨1, [none], 0, some ["y"]⟩, some BufError.InvalidArgument) ∧
    (⟨1, [none], 0, some ["y"]⟩ : Buffer) = ⟨1, [none], 0, some ["y"]⟩ :=
  ⟨rfl, claim_C6_error_atomicity.1 ⟨1, [none], 0, some ["y"]⟩
    [("x", (0:ℚ))] ⟨1, [none], 0, some ["y"]⟩ BufError.InvalidArgument rfl⟩

/-- C1: for every capacity `c > 0` and every sequence of more than `c`
(schema-consistent) appends, the buffer afterwards holds exactly the most
recent `c` appended records in insertion order (ring-buffer FIFO eviction);
in particular, with capacity 4 and appends A,B,C,D,E in order the buffer
contains exactly [B,C,D,E] and A is evicted. -/
theorem claim_C1_ring_fifo :
    (∀ (c : Nat) (s : List String) (rs : List Record) (b : Buffer),
      0 < c → c < rs.length → (∀ r ∈ rs, r.schema = s) →
      (Buffer.mk0 c).appendAll rs = .ok b →
      b.contents = (rs.drop (rs.length - c)).map some) ∧
    Except.map Buffer.contents
      ((Buffer.mk0 4).appendAll
        [[("x", (0:ℚ))], [("x", (1:ℚ))], [("x", (2:ℚ))], [("x", (3:ℚ))],
          [("x", (4:ℚ))]]) =
      .ok ([[("x", (1:ℚ))], [("x", (2:ℚ))], [("x", (3:ℚ))],
        [("x", (4:ℚ))]].map some) := by
  constructor
  · intro c s rs b hc hlen hs hb
    exact Buffer.contents_appendAll c s rs hs hc hlen b hb
  · rfl

theorem claim_C1_witness :
    0 < 1 ∧
    1 < ([[("x", (0:ℚ))], [("x", (1:ℚ))]] : List Record).length ∧
    (⟨1, [some [("x", (1:ℚ))]], 2, some ["x"]⟩ : Buffer).contents =
      (([[("x", (0:ℚ))], [("x", (1:ℚ))]] : List Record).drop 1).map some :=
  ⟨Nat.one_pos, by decide,
   claim_C1_ring_fifo.1 1 ["x"] [[("x", (0:ℚ))], [("x", (1:ℚ))]]
     ⟨1, [some [("x", (1:ℚ))]], 2, some ["x"]⟩ Nat.one_pos (by decide)
     (by decide) rfl⟩

/-- C2: after any finite sequence of non-negative `update(index, weight)`
calls, the weight tree still satisfies the internal-node sum invariant and
`total_weight()` equals the recomputed sum of all leaf weights (no drift);
freshly built trees satisfy the invariant; and for a `PrioritizedBuffer` of
capacity 3 after appends with priorities 1,2,3 at indices 0,1,2,
`total_weight()` is 6, and after setting the priority of index 1 to 10 it
is 14. -/
theorem claim_C2_sum_invariant :
    (∀ (t : WeightTree) (us : List (Nat × ℚ)), t.tree.wf →
      (∀ u ∈ us, 0 ≤ u.2) →
      ∃ t', t.applyUpdates us = .ok t' ∧ t'.tree.wf ∧
        t'.total_weight = t'.tree.leavesSum) ∧
    (∀ cap : Nat, (WeightTree.mk0 cap).tree.wf) ∧
    Except.map (fun pb => pb.wt.total_weight)
      ((PrioritizedBuffer.mk0 3).append [("x", (0:ℚ))] (some 1) >>=
        fun pb1 => pb1.append [("x", (0:ℚ))] (some 2) >>=
        fun pb2 => pb2.append [("x", (0:ℚ))] (some 3)) = .ok 6 ∧
    Except.map (fun pb => pb.wt.total_weight)
      (((PrioritizedBuffer.mk0 3).append [("x", (0:ℚ))] (some 1) >>=
        fun pb1 => pb1.append [("x", (0:ℚ))] (some 2) >>=
        fun pb2 => pb2.append [("x", (0:ℚ))] (some 3)) >>=
        fun pb => pb.update_priority 1 10) = .ok 14 := by
  refine ⟨?_, fun cap => WTree.wf_zero _, ?_, ?_⟩
  · intro t us hwf hnn
    obtain ⟨t', ht', hwfi⟩ := WeightTree.applyUpdates_ok us t hnn
    exact ⟨t', ht', hwfi hwf, WTree.value_eq_leavesSum _ (hwfi hwf)⟩
  · norm_num [PrioritizedBuffer.mk0, PrioritizedBuffer.append,
      PrioritizedBuffer.appendStep, PrioritizedBuffer.defaultPriority,
      Buffer.mk0, Buffer.size, Buffer.schemaOk, Buffer.write, Record.schema,
      WeightTree.mk0, WeightTree.setLeaf, WeightTree.total_weight,
      ceilLog2, clog2Aux, WTree.zero, WTree.updateLeaf, WTree.getLeaf,
      WTree.value, Except.map, Bind.bind, Except.bind]
  · norm_num [PrioritizedBuffer.mk0, PrioritizedBuffer.append,
      PrioritizedBuffer.appendStep, PrioritizedBuffer.defaultPriority,
      PrioritizedBuffer.update_priority, PrioritizedBuffer.updatePriorityStep,
      WeightTree.update, WeightTree.updateStep,
      Buffer.mk0, Buffer.size, Buffer.schemaOk, Buffer.write, Record.schema,
      WeightTree.mk0, WeightTree.setLeaf, WeightTree.total_weight,
      ceilLog2, clog2Aux, WTree.zero, WTree.updateLeaf, WTree.getLeaf,
      WTree.value, Except.map, Bind.bind, Except.bind]

theorem claim_C2_witness :
    (WeightTree.mk0 2).tree.wf ∧
    ∃ t', (WeightTree.mk0 2).applyUpdates [(0, 2)] = .ok t' ∧ t'.tree.wf ∧
      t'.total_weight = t'.tree.leavesSum :=
  ⟨claim_C2_sum_invariant.2.1 2,
   claim_C2_sum_invariant.1 (WeightTree.mk0 2) [(0, 2)]
     (claim_C2_sum_invariant.2.1 2)
     (by intro u hu; rw [List.mem_singleton] at hu; subst hu; norm_num)⟩

/-- C4: `PrioritizedBuffer.append(record, priority)` stores the record at the
next slot under the same ring rule as `Buffer` and sets the tree weight
of that slot to the given priority, leaving all other leaves untouched; when the
priority is omitted it defaults to the current maximum priority across all
slots, or to 1 if the buffer is empty. -/
theorem claim_C4_append_priority :
    (∀ (pb : PrioritizedBuffer) (r : Record) (pr : Option ℚ),
      pb.buffer.schemaOk r = true → 0 ≤ pr.getD pb.defaultPriority →
      pb.buffer.appended % pb.buffer.capacity < 2 ^ pb.wt.depth →
      ∃ pb', pb.appendStep r pr = (pb', none) ∧
        pb'.buffer = pb.buffer.write r ∧
        pb.buffer.appendStep r = (pb.buffer.write r, none) ∧
        pb'.wt.tree.getLeaf (pb.buffer.appended % pb.buffer.capacity) =
          pr.getD pb.defaultPriority ∧
        (∀ j, j < 2 ^ pb.wt.depth →
          j ≠ pb.buffer.appended % pb.buffer.capacity →
          pb'.wt.tree.getLeaf j = pb.wt.tree.getLeaf j)) ∧
    (∀ pb : PrioritizedBuffer, pb.buffer.size = 0 →
      pb.defaultPriority = 1) ∧
    (∀ pb : PrioritizedBuffer, pb.buffer.size ≠ 0 →
      (∀ j, pb.wt.tree.getLeaf j ≤ pb.defaultPriority) ∧
      ∃ j, j < 2 ^ pb.wt.depth ∧
        pb.wt.tree.getLeaf j = pb.defaultPriority) := by
  refine ⟨?_, ?_, ?_⟩
  · intro pb r pr hs hp hcur
    refine ⟨⟨pb.buffer.write r,
      pb.wt.setLeaf (pb.buffer.appended % pb.buffer.capacity)
        (pr.getD pb.defaultPriority)⟩, ?_, rfl, ?_, ?_, ?_⟩
    · simp [PrioritizedBuffer.appendStep, hs, not_lt.mpr hp]
    · simp [Buffer.appendStep, hs]
    · exact WTree.getLeaf_updateLeaf_self pb.wt.tree _ _ hcur
    · intro j hj hji
      exact WTree.getLeaf_updateLeaf_ne pb.wt.tree _ j _ hcur hj
        fun h => hji h.symm
  · intro pb h
    unfold PrioritizedBuffer.defaultPriority
    rw [if_pos h]
  · intro pb h
    unfold PrioritizedBuffer.defaultPriority
    rw [if_neg h]
    exact ⟨fun j => WTree.getLeaf_le_leafMax pb.wt.tree j,
      WTree.exists_getLeaf_eq_leafMax pb.wt.tree⟩

theorem claim_C4_witness :
    (PrioritizedBuffer.mk0 2).buffer.schemaOk [("x", (0:ℚ))] = true ∧
    ∃ pb', (PrioritizedBuffer.mk0 2).appendStep [("x", (0:ℚ))]
        (some 3) = (pb', none) ∧
      pb'.buffer = (PrioritizedBuffer.mk0 2).buffer.write [("x", (0:ℚ))] ∧
      (PrioritizedBuffer.mk0 2).buffer.appendStep [("x", (0:ℚ))] =
        ((PrioritizedBuffer.mk0 2).buffer.write [("x", (0:ℚ))], none) ∧
      pb'.wt.tree.getLeaf ((PrioritizedBuffer.mk0 2).buffer.appended %
        (PrioritizedBuffer.mk0 2).buffer.capacity) =
        (some (3:ℚ)).getD (PrioritizedBuffer.mk0 2).defaultPriority ∧
      (∀ j, j < 2 ^ (PrioritizedBuffer.mk0 2).wt.depth →
        j ≠ (PrioritizedBuffer.mk0 2).buffer.appended %
          (PrioritizedBuffer.mk0 2).buffer.capacity →
        pb'.wt.tree.getLeaf j =
          (PrioritizedBuffer.mk0 2).wt.tree.getLeaf j) :=
  ⟨rfl, claim_C4_append_priority.1 (PrioritizedBuffer.mk0 2)
    [("x", (0:ℚ))] (some 3) rfl (by norm_num [Option.getD]) (by decide)⟩

/-- C7: a weight tree over a capacity that is not a power of two pads its
leaf array to the next power of two with zero-weight leaves, and whenever the
total weight is positive, `WeightTree.sample` never returns an index whose
leaf weight is zero, so padded leaves and never-written slots (weight 0) are
never sampled. -/
theorem claim_C7_zero_weight_never_sampled :
    (∀ cap : Nat, cap ≤ 2 ^ (WeightTree.mk0 cap).depth ∧
      (WeightTree.mk0 cap).tree.leavesList =
        List.replicate (2 ^ (WeightTree.mk0 cap).depth) 0) ∧
    (∀ (t : WeightTree) (rs : List ℚ) (idxs : List Nat), t.tree.wf →
      (∀ x ∈ t.tree.leavesList, 0 ≤ x) → (∀ q ∈ rs, 0 ≤ q ∧ q < 1) →
      t.sample rs = .ok idxs →
      ∀ i ∈ idxs, 0 < t.tree.getLeaf i ∧ i < 2 ^ t.depth ∧
        ∀ cap' : Nat, (∀ j, cap' ≤ j → j < 2 ^ t.depth →
          t.tree.getLeaf j = 0) → i < cap') := by
  constructor
  · intro cap
    exact ⟨le_two_pow_ceilLog2 cap, WTree.leavesList_zero _⟩
  · intro t rs idxs hwf hnn hrs h i hi
    obtain ⟨hpos, hlt⟩ := WeightTree.sample_mem_spec t rs idxs hwf hnn hrs h i hi
    refine ⟨hpos, hlt, ?_⟩
    intro cap' hcap
    by_contra hge
    push_neg at hge
    exact absurd (hcap i hge hlt) (ne_of_gt hpos)

theorem claim_C7_witness :
    (⟨2, 1, WTree.nd 2 (WTree.lf 2) (WTree.lf 0)⟩ : WeightTree).tree.wf ∧
    (⟨2, 1, WTree.nd 2 (WTree.lf 2) (WTree.lf 0)⟩ : WeightTree).sample
      [1 / 2] = .ok [0] ∧
    ∀ i ∈ [0], 0 < (⟨2, 1, WTree.nd 2 (WTree.lf 2) (WTree.lf 0)⟩ :
        WeightTree).tree.getLeaf i ∧
      i < 2 ^ (⟨2, 1, WTree.nd 2 (WTree.lf 2) (WTree.lf 0)⟩ :
        WeightTree).depth ∧
      ∀ cap' : Nat, (∀ j, cap' ≤ j →
        j < 2 ^ (⟨2, 1, WTree.nd 2 (WTree.lf 2) (WTree.lf 0)⟩ :
          WeightTree).depth →
        (⟨2, 1, WTree.nd 2 (WTree.lf 2) (WTree.lf 0)⟩ :
          WeightTree).tree.getLeaf j = 0) → i < cap' := by
  have hwf : (⟨2, 1, WTree.nd 2 (WTree.lf 2) (WTree.lf 0)⟩ :
      WeightTree).tree.wf := by
    refine ⟨?_, trivial, trivial⟩
    norm_num [WTree.value]
  have hsam : (⟨2, 1, WTree.nd 2 (WTree.lf 2) (WTree.lf 0)⟩ :
      WeightTree).sample [1 / 2] = .ok [0] := by
    norm_num [WeightTree.sample, WeightTree.total_weight, WTree.value,
      WTree.descend]
  refine ⟨hwf, hsam, ?_⟩
  exact claim_C7_zero_weight_never_sampled.2
    ⟨2, 1, WTree.nd 2 (WTree.lf 2) (WTree.lf 0)⟩ [1 / 2] [0] hwf
    (by intro x hx
        simp [WTree.leavesList] at hx
        rcases hx with h | h <;> norm_num [h])
    (by intro q hq
        rw [List.mem_singleton] at hq
        subst hq
        norm_num)
    hsam

/-- C8: for a `DistributedBuffer` with 2 shards of capacity 2 each, where
shard A has 2 occupied slots and shard B has 0, `sample_batch` with
`batch_size = 4` under the proportional-dispatch strategy (a) succeeds
without error, dispatches [4, 0], draws all 4 samples from the occupied
slots of shard A, and draws no sample from the empty shard B. -/
theorem claim_C8_proportional_dispatch :
    ∀ (shA shB : Buffer) (rands : List Nat),
      shA.size = 2 → shA.capacity = 2 → shB.size = 0 →
      (DistributedBuffer.mk [shA, shB]).dispatch 4 = [4, 0] ∧
      ∃ l, (DistributedBuffer.mk [shA, shB]).sample_batch 4 rands = .ok l ∧
        l.length = 4 ∧ ∀ x ∈ l, x.1 = 0 ∧ x.2 ∈ shA.contents := by
  intro shA shB rands hA hcA hB
  have htot : (DistributedBuffer.mk [shA, shB]).totalSize = 2 := by
    simp [DistributedBuffer.totalSize, hA, hB]
  have hdisp : (DistributedBuffer.mk [shA, shB]).dispatch 4 = [4, 0] := by
    simp [DistributedBuffer.dispatch, htot, hA, hB]
  refine ⟨hdisp, (shA.localSample 4 rands).map (fun rec => (0, rec)),
    ?_, ?_, ?_⟩
  · rw [DistributedBuffer.sample_batch, if_neg (by rw [htot]; omega), hdisp]
    have hr2 : List.range (DistributedBuffer.mk [shA, shB]).shards.length =
        [0, 1] := rfl
    rw [hr2]
    simp [Buffer.localSample, hB]
  · simp [Buffer.localSample]
  · intro x hx
    simp only [Buffer.localSample, List.mem_map, List.mem_range] at hx
    obtain ⟨rec, ⟨k, hk, hrec⟩, hxx⟩ := hx
    subst hxx
    refine ⟨rfl, ?_⟩
    subst hrec
    apply listGetDMem
    rw [Buffer.contents_length, hA]
    omega

theorem claim_C8_witness :
    (⟨2, [some [("x", (0:ℚ))], some [("x", (1:ℚ))]], 2, some ["x"]⟩ :
      Buffer).size = 2 ∧
    ((DistributedBuffer.mk
      [⟨2, [some [("x", (0:ℚ))], some [("x", (1:ℚ))]], 2, some ["x"]⟩,
        Buffer.mk0 2]).dispatch 4 = [4, 0] ∧
      ∃ l, (DistributedBuffer.mk
          [⟨2, [some [("x", (0:ℚ))], some [("x", (1:ℚ))]], 2, some ["x"]⟩,
            Buffer.mk0 2]).sample_batch 4 [0, 1, 2, 3] = .ok l ∧
        l.length = 4 ∧ ∀ x ∈ l, x.1 = 0 ∧
          x.2 ∈ (⟨2, [some [("x", (0:ℚ))], some [("x", (1:ℚ))]], 2,
            some ["x"]⟩ : Buffer).contents) :=
  ⟨by decide, claim_C8_proportional_dispatch
    ⟨2, [some [("x", (0:ℚ))], some [("x", (1:ℚ))]], 2, some ["x"]⟩
    (Buffer.mk0 2) [0, 1, 2, 3] (by decide) rfl (by decide)⟩
